import Mathlib

/-!
Verification of the kyoteiAI prediction pipeline (predict.py, features.py).

The Python code works on pandas Series / DataFrames of 64-bit floats.  We use a
shallow embedding:

* a float cell is a `Value := Option ℚ`: `none` models NaN (which in pandas also
  represents missing data and failed numeric coercion), `some q` a finite value.
  Where the code distinguishes ±infinity (the final `replace([inf,-inf], nan)`
  fill in `build_features`) we use the richer cell type `FVal`.
* a DataFrame is a column-ordered association list `Frame α := List (String × List α)`;
  label lookup models pandas label indexing for frames whose column labels are
  unique (the only frames the pipeline builds).
* the trained models (`model1`..`model3`) are opaque pickled objects; their
  per-boat score vectors (`_predict_score_per_boat` results) enter the embedding
  as explicit `List ℚ` parameters, and their declared feature-name lists as an
  `Option (List String)` parameter (the result of `_get_model_feature_names`).
-/

namespace KyoteiAI

/-- A pandas float cell: `none` is NaN / missing, `some q` a finite value. -/
abbrev Value := Option ℚ

/-- The finite values of a series, in order (pandas skipna view). -/
def somes (v : List Value) : List ℚ :=
  v.filterMap id

/-- Series.max with skipna: `none` on an all-NaN series. -/
def listMax (l : List ℚ) : Option ℚ :=
  match l with
  | [] => none
  | x :: t => some (t.foldl max x)

/-- Series.min with skipna: `none` on an all-NaN series. -/
def listMin (l : List ℚ) : Option ℚ :=
  match l with
  | [] => none
  | x :: t => some (t.foldl min x)

/-- The entries counted as strictly before a finite value `q` in sort order:
below `q` for an ascending rank, above `q` for a descending one. -/
def rankPred (asc : Bool) (q y : ℚ) : Bool :=
  if asc then decide (y < q) else decide (q < y)

/-- Series.rank with method equal to min: a NaN entry keeps a NaN rank
(na_option keep), a finite entry `q` gets competition rank
`1 + #(finite entries strictly before q in sort order)`. -/
def rankMin (asc : Bool) (v : List Value) : List Value :=
  v.map (fun x =>
    match x with
    | none => none
    | some q => some (((1 + (somes v).countP (rankPred asc q) : ℕ) : ℚ)))

/-- Series.fillna with a (possibly itself NaN) scalar filler. -/
def fillnaOpt (fill : Value) (values : List Value) : List Value :=
  values.map (fun x => match x with | none => fill | some q => some q)

/-- predict.py `_safe_rank`: fill NaN with `max + 9999` (resp. `min - 9999` for
descending) so that missing entries rank behind every finite entry, then rank
with method min.  If the whole series is NaN, `v.max()` is itself NaN and the
fill is a no-op.  (`_to_float` is the identity on the already-numeric model
domain.) -/
def _safe_rank (values : List Value) (ascending : Bool) : List Value :=
  let fill : Value :=
    if ascending then (listMax (somes values)).map (fun m => m + 9999)
    else (listMin (somes values)).map (fun m => m - 9999)
  rankMin ascending (fillnaOpt fill values)

/-- features.py `_rank_asc`: plain `series.rank(method="min", ascending=True)`,
with no NaN fill at all. -/
def _rank_asc (series : List Value) : List Value :=
  rankMin true series

/-- Series.mean with skipna: `none` on an all-NaN series. -/
def vmean (v : List Value) : Value :=
  match somes v with
  | [] => none
  | xs => some (xs.sum / (xs.length : ℚ))

/-- The sample variance (`Series.std` squared, ddof = 1, skipna): `none` when
fewer than two finite values exist.  `_zscore` only ever tests the standard
deviation `s = sqrt (_var v)` for being NaN or zero, and since `_var v ≥ 0`,
`s` is NaN iff `_var v` is `none` and `s = 0` iff `_var v = some 0`. -/
def _var (v : List Value) : Option ℚ :=
  let xs := somes v
  if xs.length ≤ 1 then none
  else
    match vmean v with
    | none => none
    | some m => some ((xs.map (fun x => (x - m) ^ 2)).sum / ((xs.length - 1 : ℕ) : ℚ))

/-- predict.py `_zscore`.  The standard deviation `s` is the real square root
of `_var`, irrational in general, so the embedding abstracts the square-root
routine as a parameter `sq`; `sq` is only consulted in the branch where the
standard deviation is finite and nonzero, so every claim about the other
branch holds for the true square root by instantiation.  The guard
`pd.isna(s) or s == 0` on `s = sqrt (_var v)` is equivalent to
`_var v = none ∨ _var v = some 0` because `_var v ≥ 0`.  The branch taken
then is `(v - m).fillna(0.0)`: NaN cells become 0, finite cells `x - mean`;
the other branch is `((v - m) / s).fillna(0.0)`. -/
def _zscore (sq : ℚ → ℚ) (values : List Value) : List ℚ :=
  let m := vmean values
  let s2 := _var values
  if s2 = none ∨ s2 = some 0 then
    values.map (fun x =>
      match x, m with
      | some q, some mq => q - mq
      | _, _ => 0)
  else
    values.map (fun x =>
      match x, m, s2 with
      | some q, some mq, some v => (q - mq) / sq v
      | _, _, _ => 0)

/-- A raw float cell as produced by the feature derivations, before the final
fill: a finite number, NaN (which also encodes missing), or ±infinity. -/
inductive FVal where
  | num (q : ℚ)
  | nan
  | inf
  | ninf
deriving DecidableEq

/-- One step of `replace([np.inf, -np.inf], np.nan)` on a cell. -/
def replaceInfNan (x : FVal) : FVal :=
  match x with
  | .inf => .nan
  | .ninf => .nan
  | y => y

/-- One step of `fillna(0.0)` on a cell. -/
def fillnaZero (x : FVal) : FVal :=
  match x with
  | .nan => .num 0
  | y => y

/-- A DataFrame as a column-ordered association list; all column value lists of
a well-formed frame have the same length (the row count). -/
abbrev Frame (α : Type) := List (String × List α)

/-- The final fill of `build_features` (identical last lines of both
features.py and predict.py): `feat.replace([np.inf, -np.inf], np.nan).fillna(0.0)`,
applied cellwise to the whole frame. -/
def final_fill (feat : Frame FVal) : Frame FVal :=
  feat.map (fun c => (c.1, c.2.map (fun x => fillnaZero (replaceInfNan x))))

/-- Label lookup: the first column carrying the label (pandas label indexing,
exact for frames with unique column labels). -/
def lookupCol {α : Type} (X : Frame α) (c : String) : Option (List α) :=
  (X.find? (fun p => p.1 == c)).map Prod.snd

/-- Membership test `c in X.columns`. -/
def hasCol {α : Type} (X : Frame α) (c : String) : Bool :=
  X.any (fun p => p.1 == c)

/-- Row count of a frame (the length of its columns; 0 for a frame without
columns). -/
def nRows {α : Type} (X : Frame α) : ℕ :=
  match X with
  | [] => 0
  | c :: _ => c.2.length

/-- DataFrame.empty: a frame with no columns or no rows. -/
def dfEmpty {α : Type} (X : Frame α) : Bool :=
  nRows X == 0

/-- The loop `for c in names: if c not in X2.columns: X2[c] = 0.0` — each new
column is appended with the value 0.0 in every existing row. -/
def addMissing (nr : ℕ) (X : Frame Value) (names : List String) : Frame Value :=
  names.foldl
    (fun acc c => if hasCol acc c then acc else acc ++ [(c, List.replicate nr (some 0))])
    X

/-- predict.py `_align_features_to_model`, with the probed model feature names
(`_get_model_feature_names` result) passed as `names`.  Python tests
`if not names`, so both `None` and an empty list short-circuit to a pass-through.
Otherwise missing columns are zero-filled and `X2[names]` reindexes to exactly
the declared columns in the declared order. -/
def _align_features_to_model (names : Option (List String)) (X : Frame Value) : Frame Value :=
  match names with
  | none => X
  | some ns =>
    if ns = [] then X
    else
      let X2 := addMissing (nRows X) X ns
      ns.map (fun c => (c, (lookupCol X2 c).getD []))

/-- The aligner contract in the words of the spec: exactly the declared columns
in declared order, a declared column absent from the input filled with 0.0 for
every row, input columns not declared dropped. -/
def align_spec (ns : List String) (X : Frame Value) : Frame Value :=
  ns.map (fun c => (c, (lookupCol X c).getD (List.replicate (nRows X) (some 0))))

/-- One row of the trifecta result frame: winners of the three positions, the
combined score and the three contributing (clipped) marginals. -/
structure TriRow where
  first : ℤ
  second : ℤ
  third : ℤ
  score : ℚ
  q1 : ℚ
  q2 : ℚ
  q3 : ℚ
deriving DecidableEq

/-- The errors `predict_trifecta` can raise. -/
inductive PredErr where
  | valueError (msg : String)
  | keyError (msg : String)
deriving DecidableEq

/-- np.clip(p, 0.0, None): clip from below at 0; there is no upper clip. -/
def clip0 (p : List ℚ) : List ℚ :=
  p.map (fun x => max 0 x)

/-- Python enumerate, starting at `k`. -/
def enumFrom (k : ℕ) : List ℤ → List (ℕ × ℤ)
  | [] => []
  | b :: t => (k, b) :: enumFrom (k + 1) t

/-- The dict comprehension `idx = {b: i for i, b in enumerate(boats)}`: a later
duplicate key overwrites an earlier one, so `b` maps to the last index holding
it.  (A key absent from the dict raises KeyError in Python; the code only looks
up members of `boats`, so the default 0 is never exercised.) -/
def pyDictIdx (boats : List ℤ) (b : ℤ) : ℕ :=
  (((enumFrom 0 boats).filter (fun p => p.2 == b)).map Prod.fst).getLastD 0

/-- itertools.permutations(range n, 3) as index triples, in the enumeration
order of itertools.permutations: for each i, each j ≠ i in ascending order,
each k ∉ {i, j} in ascending order — lexicographic in (i, j, k). -/
def triples (n : ℕ) : List (ℕ × ℕ × ℕ) :=
  (List.range n).flatMap (fun i =>
    ((List.range n).filter (fun j => j != i)).flatMap (fun j =>
      ((List.range n).filter (fun k => k != i && k != j)).map (fun k => (i, j, k))))

/-- truncation of `astype(int)` (toward zero); a NaN cell would raise in
pandas, so `none` is outside the modelled domain (mapped to 0 here). -/
def toIntTrunc (x : Value) : ℤ :=
  match x with
  | some q => q.num / (q.den : ℤ)
  | none => 0

/-- The loop body of `for a, b, c in itertools.permutations(boats, 3)`: clip
the score vectors at 0 from below, look each drawn boat up in the index dict
and multiply the three marginals. -/
def trifecta_rows (p1 p2 p3 : List ℚ) (boats : List ℤ) : List TriRow :=
  let c1 := clip0 p1
  let c2 := clip0 p2
  let c3 := clip0 p3
  (triples boats.length).map (fun t =>
    let a := boats.getD t.1 0
    let b := boats.getD t.2.1 0
    let c := boats.getD t.2.2 0
    let ia := pyDictIdx boats a
    let ib := pyDictIdx boats b
    let ic := pyDictIdx boats c
    { first := a, second := b, third := c,
      score := c1.getD ia 0 * c2.getD ib 0 * c3.getD ic 0,
      q1 := c1.getD ia 0, q2 := c2.getD ib 0, q3 := c3.getD ic 0 })

/-- The sort key order of the result frame: weakly increasing score. -/
def scoreLe (a b : TriRow) : Prop :=
  a.score ≤ b.score

instance : DecidableRel scoreLe :=
  fun a b => inferInstanceAs (Decidable (a.score ≤ b.score))

instance : IsTotal TriRow scoreLe :=
  ⟨fun a b => le_total a.score b.score⟩

instance : IsTrans TriRow scoreLe :=
  ⟨fun _ _ _ h1 h2 => le_trans h1 h2⟩

/-- pandas `sort_values("score", ascending=False)`: pandas computes the
ascending argsort of the key column and reverses the resulting indexer
(pandas nargsort).  The ascending argsort is modelled by a stable sort; for
fewer than 16 rows numpy's default introsort is exactly a stable insertion
sort, so the model is bit-exact on the small frames used as concrete inputs
below, and for larger frames it differs at most in the relative order of
equal-score rows. -/
def sortDesc (rows : List TriRow) : List TriRow :=
  (List.insertionSort scoreLe rows).reverse

/-- predict.py `predict_trifecta`.  The opaque models enter as their per-boat
score vectors `p1 p2 p3` (the `_predict_score_per_boat` results on the aligned
matrices).  Python raises ValueError when `df_feat` is None or empty and
KeyError when the boat-number column is missing; raising is modelled with
`Except`.  `boats` is the boat-number column cast to int. -/
def predict_trifecta (p1 p2 p3 : List ℚ) (df_feat : Frame Value) (top_n : ℕ) :
    Except PredErr (List TriRow) :=
  if dfEmpty df_feat then
    .error (.valueError "df_feat is empty")
  else if hasCol df_feat "racer_boat_number" then
    let boats := ((lookupCol df_feat "racer_boat_number").getD []).map toIntTrunc
    .ok ((sortDesc (trifecta_rows p1 p2 p3 boats)).take top_n)
  else
    .error (.keyError "df_feat must contain racer_boat_number")

deriving instance DecidableEq for Except

/-! Helper lemmas. -/

theorem mem_somes {v : List Value} {q : ℚ} (hx : some q ∈ v) : q ∈ somes v := by
  simp only [somes, List.mem_filterMap]
  exact ⟨some q, hx, rfl⟩

theorem list_sum_zero_of_nonneg {l : List ℚ} (h0 : ∀ x ∈ l, 0 ≤ x) (hs : l.sum = 0) :
    ∀ x ∈ l, x = 0 := by
  induction l with
  | nil => intro x hx; cases hx
  | cons a t ih =>
      have hts : 0 ≤ t.sum := List.sum_nonneg (fun x hx => h0 x (List.mem_cons_of_mem a hx))
      have ha : 0 ≤ a := h0 a (List.mem_cons_self a t)
      have hsum : a + t.sum = 0 := by simpa using hs
      have ha0 : a = 0 := by linarith
      have ht0 : t.sum = 0 := by linarith
      intro x hx
      rcases List.mem_cons.mp hx with rfl | hx
      · exact ha0
      · exact ih (fun y hy => h0 y (List.mem_cons_of_mem a hy)) ht0 x hx

theorem mean_of_guard {v : List Value} (h : _var v = none ∨ _var v = some 0)
    {q : ℚ} (hq : q ∈ somes v) : vmean v = some q := by
  rcases hs : somes v with _ | ⟨x, xs⟩
  · rw [hs] at hq; cases hq
  rcases hxs : xs with _ | ⟨y, ys⟩
  · subst hxs
    rw [hs] at hq
    rcases List.mem_singleton.mp hq with rfl
    simp [vmean, hs]
  · subst hxs
    have hlen : ¬ (somes v).length ≤ 1 := by rw [hs]; simp
    have hm : vmean v = some ((somes v).sum / ((somes v).length : ℚ)) := by
      rw [vmean, hs]
    rcases h with h | h
    · rw [_var, hm, if_neg hlen] at h
      exact Option.noConfusion h
    · rw [_var, hm] at h
      simp only [if_neg hlen, Option.some.injEq] at h
      set m := (somes v).sum / ((somes v).length : ℚ) with hmdef
      have hden : (((somes v).length - 1 : ℕ) : ℚ) ≠ 0 := by
        have : 2 ≤ (somes v).length := by omega
        have h1 : 1 ≤ (somes v).length - 1 := by omega
        exact_mod_cast Nat.one_le_iff_ne_zero.mp h1
      have hsum : ((somes v).map (fun x => (x - m) ^ 2)).sum = 0 := by
        rcases div_eq_zero_iff.mp h with h' | h'
        · exact h'
        · exact absurd h' hden
      have hzero : ∀ y ∈ (somes v).map (fun x => (x - m) ^ 2), y = 0 :=
        list_sum_zero_of_nonneg
          (by
            intro y hy
            obtain ⟨z, _, rfl⟩ := List.mem_map.mp hy
            positivity)
          hsum
      have hq0 : (q - m) ^ 2 = 0 := hzero _ (List.mem_map_of_mem _ hq)
      have hqm : q = m := by
        have := pow_eq_zero_iff (n := 2) (by norm_num) |>.mp hq0
        linarith [sub_eq_zero.mp this]
      rw [hm, hqm]

/-! Claim theorems. -/

/-- C8: for every race, whenever the race-local standard deviation is zero or
undefined (all finite values equal, fewer than two finite values, or all
values missing), `_zscore` returns 0.0 for every entrant of the race, with no
division performed. -/
theorem kyotei_C8_zscore_zero (sq : ℚ → ℚ) (v : List Value)
    (h : _var v = none ∨ _var v = some 0) :
    _zscore sq v = List.replicate v.length 0 := by
  simp only [_zscore]
  rw [if_pos h]
  refine List.eq_replicate_iff.mpr ⟨by simp, ?_⟩
  intro b hb
  obtain ⟨x, hx, rfl⟩ := List.mem_map.mp hb
  rcases x with _ | q
  · rcases hm : vmean v with _ | mq <;> rfl
  · have hmem : q ∈ somes v := mem_somes hx
    have := mean_of_guard h hmem
    rw [this]
    simp

/-- C8 witness: a race where every entrant shares the value 5 has sample
standard deviation 0 and z-scores 0 for all three entrants. -/
theorem kyotei_C8_zscore_zero_witness :
    (_var [some 5, some 5, some 5] = none ∨ _var [some 5, some 5, some 5] = some 0) ∧
    _zscore (fun _ => 0) [some 5, some 5, some 5] = List.replicate 3 0 :=
  ⟨by with_unfolding_all decide,
   kyotei_C8_zscore_zero (fun _ => 0) [some 5, some 5, some 5]
     (by with_unfolding_all decide)⟩

/-- C9: the final fill of the feature builder (replace ±inf with NaN, then fill
NaN with 0.0) leaves every cell of every column of the produced frame a finite
number. -/
theorem kyotei_C9_final_fill_finite (feat : Frame FVal) :
    ∀ p ∈ final_fill feat, ∀ x ∈ p.2, ∃ q, x = FVal.num q := by
  intro p hp x hx
  obtain ⟨c, _, rfl⟩ := List.mem_map.mp hp
  obtain ⟨y, _, rfl⟩ := List.mem_map.mp hx
  cases y with
  | num q => exact ⟨q, rfl⟩
  | nan => exact ⟨0, rfl⟩
  | inf => exact ⟨0, rfl⟩
  | ninf => exact ⟨0, rfl⟩

/-- C9 witness: a derived column holding NaN, +inf, -inf and 3.0 comes out of
the final fill as the finite column [0, 0, 0, 3]. -/
theorem kyotei_C9_final_fill_finite_witness :
    (("exh", [FVal.num 0, FVal.num 0, FVal.num 0, FVal.num 3]) ∈
      final_fill [("exh", [FVal.nan, FVal.inf, FVal.ninf, FVal.num 3])]) ∧
    (FVal.num 0 ∈ [FVal.num 0, FVal.num 0, FVal.num 0, FVal.num 3]) ∧
    ∃ q, FVal.num 0 = FVal.num q :=
  ⟨by decide, by decide,
   kyotei_C9_final_fill_finite [("exh", [FVal.nan, FVal.inf, FVal.ninf, FVal.num 3])]
     ("exh", [FVal.num 0, FVal.num 0, FVal.num 0, FVal.num 3]) (by decide)
     (FVal.num 0) (by decide)⟩

/-- C6: when the model exposes no declared feature-name list
(`_get_model_feature_names` returned None), the aligner is a no-op and returns
the input frame unchanged instead of raising. -/
theorem kyotei_C6_align_noop (X : Frame Value) :
    _align_features_to_model none X = X := rfl

/-- C10: `predict_trifecta` raises ValueError on an empty feature table and
KeyError when the boat-number column is missing, and proceeds to scoring
exactly when the table is nonempty and carries the column. -/
theorem kyotei_C10_preconditions (p1 p2 p3 : List ℚ) (df : Frame Value) (topn : ℕ) :
    (dfEmpty df = true →
      predict_trifecta p1 p2 p3 df topn = .error (.valueError "df_feat is empty")) ∧
    (dfEmpty df = false → hasCol df "racer_boat_number" = false →
      predict_trifecta p1 p2 p3 df topn =
        .error (.keyError "df_feat must contain racer_boat_number")) ∧
    (dfEmpty df = false → hasCol df "racer_boat_number" = true →
      predict_trifecta p1 p2 p3 df topn =
        .ok ((sortDesc (trifecta_rows p1 p2 p3
          (((lookupCol df "racer_boat_number").getD []).map toIntTrunc))).take topn)) := by
  refine ⟨fun h => ?_, fun h1 h2 => ?_, fun h1 h2 => ?_⟩
  · simp [predict_trifecta, h]
  · simp [predict_trifecta, h1, h2]
  · simp [predict_trifecta, h1, h2]

/-- C10 witness: the three branches at concrete inputs — an empty frame, a
one-boat frame without the boat column, and a one-boat frame with it. -/
theorem kyotei_C10_preconditions_witness :
    predict_trifecta [] [] [] [] 5 = .error (.valueError "df_feat is empty") ∧
    predict_trifecta [1] [1] [1] [("lane", [some 1])] 5 =
      .error (.keyError "df_feat must contain racer_boat_number") ∧
    predict_trifecta [1] [1] [1] [("racer_boat_number", [some 1])] 5 = .ok [] :=
  ⟨(kyotei_C10_preconditions [] [] [] [] 5).1 rfl,
   (kyotei_C10_preconditions [1] [1] [1] [("lane", [some 1])] 5).2.1 rfl rfl,
   ((kyotei_C10_preconditions [1] [1] [1] [("racer_boat_number", [some 1])] 5).2.2
      rfl rfl).trans (by with_unfolding_all decide)⟩

theorem lookupCol_of_hasCol_false {X : Frame Value} {c : String}
    (h : hasCol X c = false) : lookupCol X c = none := by
  rw [lookupCol]
  rw [hasCol] at h
  have : X.find? (fun p => p.1 == c) = none := by
    rw [List.find?_eq_none]
    intro x hx hpx
    have : X.any (fun p => p.1 == c) = true := List.any_eq_true.mpr ⟨x, hx, hpx⟩
    rw [h] at this
    cases this
  rw [this]
  rfl

theorem lookupCol_append {X Y : Frame Value} {c : String} :
    lookupCol (X ++ Y) c =
      ((X.find? (fun p => p.1 == c)).or (Y.find? (fun p => p.1 == c))).map Prod.snd := by
  rw [lookupCol, List.find?_append]

theorem lookupCol_append_of_some {X Y : Frame Value} {c : String} {v : List Value}
    (h : lookupCol X c = some v) : lookupCol (X ++ Y) c = some v := by
  rw [lookupCol] at h
  rcases hf : X.find? (fun p => p.1 == c) with _ | p
  · rw [hf] at h; cases h
  · rw [lookupCol_append, hf]
    rw [hf] at h
    exact h

theorem lookupCol_append_of_none {X Y : Frame Value} {c : String}
    (h : lookupCol X c = none) : lookupCol (X ++ Y) c = lookupCol Y c := by
  rw [lookupCol] at h
  rcases hf : X.find? (fun p => p.1 == c) with _ | p
  · rw [lookupCol_append, hf, lookupCol]
    rfl
  · rw [hf] at h; cases h

theorem lookupCol_addMissing_of_some {ns : List String} {X : Frame Value} {c : String}
    {v : List Value} (nr : ℕ) (hv : lookupCol X c = some v) :
    lookupCol (addMissing nr X ns) c = some v := by
  induction ns generalizing X with
  | nil => exact hv
  | cons d ds ih =>
      rw [addMissing, List.foldl_cons]
      by_cases hd : hasCol X d
      · rw [if_pos hd]
        exact ih hv
      · rw [if_neg hd]
        exact ih (lookupCol_append_of_some hv)

theorem lookupCol_addMissing_of_none {ns : List String} {X : Frame Value} {c : String}
    (nr : ℕ) (hnone : lookupCol X c = none) (hc : c ∈ ns) :
    lookupCol (addMissing nr X ns) c = some (List.replicate nr (some 0)) := by
  induction ns generalizing X with
  | nil => cases hc
  | cons d ds ih =>
      rw [addMissing, List.foldl_cons]
      by_cases hcd : c = d
      · subst hcd
        have hd : hasCol X c = false := by
          rcases hb : hasCol X c
          · rfl
          · rw [lookupCol] at hnone
            rcases List.any_eq_true.mp hb with ⟨p, hp, hpc⟩
            rcases hf : X.find? (fun p => p.1 == c) with _ | p'
            · rcases (List.find?_eq_none.mp hf) p hp hpc
            · rw [hf] at hnone; cases hnone
        rw [if_neg (by rw [hd]; exact Bool.false_ne_true)]
        have hnew : lookupCol (X ++ [(c, List.replicate nr (some 0))]) c =
            some (List.replicate nr (some 0)) := by
          rw [lookupCol_append_of_none hnone, lookupCol]
          simp
        exact lookupCol_addMissing_of_some nr hnew
      · have hstep : ∀ Y : Frame Value,
            (if hasCol X d then X else X ++ [(d, List.replicate nr (some 0))]) = Y →
            lookupCol Y c = none := by
          intro Y hY
          by_cases hd : hasCol X d
          · rw [if_pos hd] at hY; rw [← hY]; exact hnone
          · rw [if_neg hd] at hY
            rw [← hY, lookupCol_append_of_none hnone, lookupCol]
            rcases hfind : List.find? (fun p => p.1 == c)
                ([(d, List.replicate nr (some 0))] : Frame Value) with _ | p'
            · rw [hfind]; rfl
            · exfalso
              have h1 := List.find?_some hfind
              have h2 := List.mem_of_find?_eq_some hfind
              rcases List.mem_singleton.mp h2 with rfl
              exact hcd (eq_of_beq h1).symm
        rcases List.mem_cons.mp hc with rfl | hc'
        · exact absurd rfl hcd
        · exact ih (hstep _ rfl) hc'

/-- C5: for a model with a non-empty declared feature-name list, the aligner
returns exactly the declared columns in declared order, every declared column
absent from the input zero-filled over all rows, every undeclared input column
dropped, and every output column keeping one value per input row. -/
theorem kyotei_C5_align (ns : List String) (X : Frame Value)
    (hns : ns ≠ [])
    (hU : ∀ p ∈ X, p.2.length = nRows X) :
    _align_features_to_model (some ns) X = align_spec ns X ∧
    (_align_features_to_model (some ns) X).map Prod.fst = ns ∧
    (∀ p ∈ _align_features_to_model (some ns) X, p.2.length = nRows X) := by
  have hmain : _align_features_to_model (some ns) X = align_spec ns X := by
    rw [_align_features_to_model]
    rw [if_neg hns]
    rw [align_spec]
    refine List.map_congr_left ?_
    intro c hc
    rcases hl : lookupCol X c with _ | v
    · rw [lookupCol_addMissing_of_none (nRows X) hl hc]
      rfl
    · rw [lookupCol_addMissing_of_some (nRows X) hl]
      rfl
  refine ⟨hmain, ?_, ?_⟩
  · rw [hmain, align_spec, List.map_map]
    have hcomp : (Prod.fst ∘ fun c =>
        (c, (lookupCol X c).getD (List.replicate (nRows X) (some 0)))) = id := rfl
    rw [hcomp, List.map_id]
  · intro p hp
    rw [hmain, align_spec] at hp
    obtain ⟨c, _, rfl⟩ := List.mem_map.mp hp
    rcases hl : lookupCol X c with _ | v
    · exact List.length_replicate _ _
    · show v.length = nRows X
      rw [lookupCol] at hl
      rcases hf : X.find? (fun p => p.1 == c) with _ | p'
      · rw [hf] at hl; cases hl
      · rw [hf] at hl
        have hmem := List.mem_of_find?_eq_some hf
        have hv : p'.2 = v := by simpa using hl
        rw [← hv]
        exact hU p' hmem

/-- C5 witness: the spec's own example — a model declaring [f1, f2, f3] against
input columns [f1, f4] gives exactly columns f1, f2 = 0, f3 = 0 with f4 gone,
two values per column. -/
theorem kyotei_C5_align_witness :
    _align_features_to_model (some ["f1", "f2", "f3"])
        [("f1", [some 1, some 2]), ("f4", [some 3, some 4])] =
      align_spec ["f1", "f2", "f3"]
        [("f1", [some 1, some 2]), ("f4", [some 3, some 4])] ∧
    (_align_features_to_model (some ["f1", "f2", "f3"])
        [("f1", [some 1, some 2]), ("f4", [some 3, some 4])]).map Prod.fst =
      ["f1", "f2", "f3"] ∧
    (∀ p ∈ _align_features_to_model (some ["f1", "f2", "f3"])
        [("f1", [some 1, some 2]), ("f4", [some 3, some 4])],
      p.2.length = nRows [("f1", [some 1, some 2]), ("f4", [some 3, some 4])]) :=
  kyotei_C5_align ["f1", "f2", "f3"]
    [("f1", [some 1, some 2]), ("f4", [some 3, some 4])]
    (by decide) (by decide)

theorem le_foldl_max (t : List ℚ) (a : ℚ) : a ≤ t.foldl max a := by
  induction t generalizing a with
  | nil => exact le_refl a
  | cons b t ih => exact le_trans (le_max_left a b) (ih (max a b))

theorem mem_le_foldl_max (t : List ℚ) (a x : ℚ) (hx : x ∈ t) : x ≤ t.foldl max a := by
  induction t generalizing a with
  | nil => cases hx
  | cons b t ih =>
      rcases List.mem_cons.mp hx with rfl | hx'
      · exact le_trans (le_max_right a x) (le_foldl_max t (max a x))
      · exact ih (max a b) hx'

theorem listMax_ge {l : List ℚ} {M : ℚ} (hM : listMax l = some M) :
    ∀ x ∈ l, x ≤ M := by
  rcases l with _ | ⟨a, t⟩
  · intro x hx; cases hx
  · have hMa : t.foldl max a = M := by
      have : listMax (a :: t) = some (t.foldl max a) := rfl
      rw [this] at hM
      exact Option.some.inj hM
    intro x hx
    rcases List.mem_cons.mp hx with rfl | hx'
    · rw [← hMa]; exact le_foldl_max t x
    · rw [← hMa]; exact mem_le_foldl_max t a x hx'

theorem somes_cons_some (q : ℚ) (l : List Value) : somes (some q :: l) = q :: somes l := rfl

theorem somes_cons_none (l : List Value) : somes (none :: l) = somes l := rfl

theorem fillnaOpt_cons_some (f : Value) (q : ℚ) (l : List Value) :
    fillnaOpt f (some q :: l) = some q :: fillnaOpt f l := rfl

theorem fillnaOpt_cons_none (f : Value) (l : List Value) :
    fillnaOpt f (none :: l) = f :: fillnaOpt f l := rfl

theorem countP_somes_fill (v : List Value) (F : ℚ) (P : ℚ → Bool) (hPF : P F = false) :
    (somes (fillnaOpt (some F) v)).countP P = (somes v).countP P := by
  induction v with
  | nil => rfl
  | cons a t ih =>
      rcases a with _ | q
      · rw [fillnaOpt_cons_none, somes_cons_none, somes_cons_some, List.countP_cons, hPF, ih]
        simp
      · rw [fillnaOpt_cons_some, somes_cons_some, somes_cons_some,
          List.countP_cons, List.countP_cons, ih]

theorem getD_map_of_lt {α β : Type} (f : α → β) (v : List α) {i : ℕ} (hi : i < v.length)
    (d : β) (e : α) : (v.map f).getD i d = f (v.getD i e) := by
  have hi' : i < (v.map f).length := by simpa using hi
  rw [List.getD_eq_getElem _ _ hi', List.getElem_map, List.getD_eq_getElem _ _ hi]

theorem fillnaOpt_getD_none (f : Value) (v : List Value) {i : ℕ} (hi : i < v.length)
    (hv : v.getD i none = none) (d : Value) : (fillnaOpt f v).getD i d = f := by
  rw [fillnaOpt, getD_map_of_lt _ v hi d none, hv]

theorem fillnaOpt_getD_some (f : Value) (v : List Value) {i : ℕ} (hi : i < v.length)
    {q : ℚ} (hv : v.getD i none = some q) (d : Value) :
    (fillnaOpt f v).getD i d = some q := by
  rw [fillnaOpt, getD_map_of_lt _ v hi d none, hv]

theorem rankMin_getD_some (asc : Bool) (w : List Value) {i : ℕ} (hi : i < w.length)
    {q : ℚ} (hw : w.getD i none = some q) (d : Value) :
    (rankMin asc w).getD i d =
      some (((1 + (somes w).countP (rankPred asc q) : ℕ) : ℚ)) := by
  rw [rankMin, getD_map_of_lt _ w hi d none, hw]

/-- C7 counterexample: features.py `_rank_asc` (one of the two rank derivers
the claim covers) leaves a missing value with an undefined NaN rank, so the
claim's own example [10.0, missing, 12.0] yields [1, NaN, 2], not [1, 3, 2]. -/
theorem kyotei_C7_counterexample :
    _rank_asc [some 10, none, some 12] = [some 1, none, some 2] ∧
    _rank_asc [some 10, none, some 12] ≠ [some 1, some 3, some 2] := by
  constructor
  · with_unfolding_all decide
  · with_unfolding_all decide

/-- C7 amended: predict.py `_safe_rank` (ascending) with at least one
non-missing value in the race ranks every missing entrant at
1 + (number of non-missing values) — strictly after every non-missing entrant,
never first, never undefined — and gives every non-missing value `q` the
minimum-based competition rank 1 + #(non-missing values strictly below q),
which is at most the number of non-missing values.  (features.py `_rank_asc`
instead leaves missing values with an undefined NaN rank, and with no
non-missing value at all `_safe_rank` also returns undefined ranks.) -/
theorem kyotei_C7_safe_rank (v : List Value) (h : ∃ x ∈ v, x ≠ none) :
    (∀ i, i < v.length → v.getD i none = none →
      (_safe_rank v true).getD i none = some (((1 + (somes v).length : ℕ) : ℚ))) ∧
    (∀ i, i < v.length → ∀ q, v.getD i none = some q →
      (_safe_rank v true).getD i none =
        some (((1 + (somes v).countP (fun y => decide (y < q)) : ℕ) : ℚ)) ∧
      1 + (somes v).countP (fun y => decide (y < q)) ≤ (somes v).length) ∧
    1 ≤ (somes v).length := by
  obtain ⟨x0, hx0v, hx0⟩ := h
  have hne : somes v ≠ [] := by
    rcases x0 with _ | q0
    · exact absurd rfl hx0
    · intro hemp
      have := mem_somes hx0v
      rw [hemp] at this
      cases this
  obtain ⟨M, hM⟩ : ∃ M, listMax (somes v) = some M := by
    rcases hs : somes v with _ | ⟨a, t⟩
    · exact absurd hs hne
    · exact ⟨t.foldl max a, rfl⟩
  have hpred : ∀ q : ℚ, rankPred true q = fun y => decide (y < q) := fun q => rfl
  have hrw : _safe_rank v true = rankMin true (fillnaOpt (some (M + 9999)) v) := by
    rw [_safe_rank]
    simp only [if_true, hM]
    rfl
  have hlt : ∀ x ∈ somes v, x < M + 9999 := by
    intro x hx
    have := listMax_ge hM x hx
    linarith
  have hcount : ∀ q : ℚ, q ≤ M →
      (somes (fillnaOpt (some (M + 9999)) v)).countP (rankPred true q)
        = (somes v).countP (rankPred true q) := by
    intro q hq
    refine countP_somes_fill v (M + 9999) _ ?_
    rw [hpred]
    simp only [decide_eq_false_iff_not, not_lt]
    linarith
  have hfull :
      (somes (fillnaOpt (some (M + 9999)) v)).countP (rankPred true (M + 9999))
        = (somes v).length := by
    rw [countP_somes_fill v (M + 9999) _ (by rw [hpred]; simp)]
    refine List.countP_eq_length.mpr (fun x hx => ?_)
    rw [hpred]
    simpa using hlt x hx
  have hlen1 : 1 ≤ (somes v).length := by
    rcases hs : somes v with _ | ⟨a, t⟩
    · exact absurd hs hne
    · simp
  have hlenfill : v.length = (fillnaOpt (some (M + 9999)) v).length := by
    rw [fillnaOpt, List.length_map]
  refine ⟨?_, ?_, hlen1⟩
  · intro i hi hnone
    have hfv : (fillnaOpt (some (M + 9999)) v).getD i none = some (M + 9999) :=
      fillnaOpt_getD_none _ v hi hnone none
    rw [hrw, rankMin_getD_some true _ (by rw [← hlenfill]; exact hi) hfv none, hfull]
  · intro i hi q hq
    have hqmem : q ∈ somes v := by
      refine mem_somes ?_
      rw [List.getD_eq_getElem v none hi] at hq
      exact hq ▸ List.getElem_mem hi
    have hqM : q ≤ M := listMax_ge hM q hqmem
    constructor
    · have hfv : (fillnaOpt (some (M + 9999)) v).getD i none = some q :=
        fillnaOpt_getD_some _ v hi hq none
      rw [hrw, rankMin_getD_some true _ (by rw [← hlenfill]; exact hi) hfv none,
        hcount q hqM, hpred]
    · have hnotq : 0 < (somes v).countP (fun y => decide ¬(decide (y < q)) = true) := by
        refine List.countP_pos_iff.mpr ⟨q, hqmem, ?_⟩
        simp
      have htot := List.length_eq_countP_add_countP (fun y => decide (y < q)) (somes v)
      omega

/-- C7 witness: the spec's example race [10.0, missing, 12.0] — the missing
entrant (index 1) gets the defined, worst rank 3 = 1 + 2. -/
theorem kyotei_C7_safe_rank_witness :
    (∃ x ∈ [some (10 : ℚ), none, some 12], x ≠ none) ∧
    (_safe_rank [some (10 : ℚ), none, some 12] true).getD 1 none =
      some (((1 + (somes [some (10 : ℚ), none, some 12]).length : ℕ) : ℚ)) :=
  ⟨⟨some 10, by decide, by decide⟩,
   (kyotei_C7_safe_rank [some (10 : ℚ), none, some 12]
      ⟨some 10, by decide, by decide⟩).1 1 (by decide) (by decide)⟩

theorem enumFrom_filter_not_mem {b : ℤ} :
    ∀ (t : List ℤ) (k : ℕ), b ∉ t → (enumFrom k t).filter (fun p => p.2 == b) = [] := by
  intro t
  induction t with
  | nil => intro k _; rfl
  | cons c t ih =>
      intro k hb
      have hcb : ((k, c).2 == b) = false := by
        refine beq_eq_false_iff_ne.mpr ?_
        intro hh
        have hh' : c = b := hh
        exact hb (by rw [← hh']; exact List.mem_cons_self c t)
      rw [enumFrom, List.filter_cons, hcb, if_neg Bool.false_ne_true]
      exact ih (k + 1) (fun hm => hb (List.mem_cons_of_mem c hm))

theorem enumFrom_filter_get (boats : List ℤ) (h : boats.Nodup) :
    ∀ (k i : ℕ) (hi : i < boats.length),
      (enumFrom k boats).filter (fun p => p.2 == boats.getD i 0) =
        [(k + i, boats.getD i 0)] := by
  induction boats with
  | nil => intro k i hi; cases hi
  | cons c t ih =>
      intro k i hi
      rcases i with _ | i
      · have hcc : ((k, c).2 == c) = true := beq_self_eq_true c
        rw [List.getD_cons_zero, enumFrom, List.filter_cons, hcc]
        rw [enumFrom_filter_not_mem t (k + 1) (List.Nodup.not_mem h)]
        simp
      · have hit : i < t.length := by simpa using hi
        have hgd : (c :: t).getD (i + 1) 0 = t.getD i 0 := List.getD_cons_succ
        have hmem : t.getD i 0 ∈ t := by
          rw [List.getD_eq_getElem t 0 hit]
          exact List.getElem_mem hit
        have hcb : ((k, c).2 == t.getD i 0) = false := by
          refine beq_eq_false_iff_ne.mpr ?_
          intro hh
          have hh' : c = t.getD i 0 := hh
          exact (List.Nodup.not_mem h) (by rw [hh']; exact hmem)
        rw [hgd, enumFrom, List.filter_cons, hcb, if_neg Bool.false_ne_true]
        rw [ih (List.Nodup.of_cons h) (k + 1) i hit]
        have harith : k + 1 + i = k + (i + 1) := by omega
        rw [harith]

theorem pyDictIdx_getD (boats : List ℤ) (h : boats.Nodup) {i : ℕ} (hi : i < boats.length) :
    pyDictIdx boats (boats.getD i 0) = i := by
  rw [pyDictIdx, enumFrom_filter_get boats h 0 i hi]
  simp [List.getLastD]

theorem mem_triples {n i j k : ℕ} :
    (i, j, k) ∈ triples n ↔
      i < n ∧ j < n ∧ k < n ∧ i ≠ j ∧ i ≠ k ∧ j ≠ k := by
  simp only [triples, List.mem_flatMap, List.mem_filter, List.mem_range, List.mem_map,
    bne_iff_ne, Bool.and_eq_true, decide_eq_true_eq]
  constructor
  · rintro ⟨i', hi', j', ⟨hj', hji⟩, k', ⟨hk', hki, hkj⟩, heq⟩
    obtain ⟨rfl, rfl, rfl⟩ : i' = i ∧ j' = j ∧ k' = k := by
      have h1 := congrArg Prod.fst heq
      have h2 := congrArg (fun t => t.2.1) heq
      have h3 := congrArg (fun t => t.2.2) heq
      exact ⟨h1, h2, h3⟩
    exact ⟨hi', hj', hk', fun hh => hji hh.symm, fun hh => hki hh.symm,
      fun hh => hkj hh.symm⟩
  · rintro ⟨hi, hj, hk, hij, hik, hjk⟩
    exact ⟨i, hi, j, ⟨hj, fun hh => hij hh.symm⟩,
      k, ⟨hk, fun hh => hik hh.symm, fun hh => hjk hh.symm⟩, rfl⟩

theorem sum_map_const {α : Type} (l : List α) (c : ℕ) :
    (l.map (fun _ => c)).sum = l.length * c := by
  induction l with
  | nil => simp
  | cons a t ih =>
      simp only [List.map_cons, List.sum_cons, List.length_cons, ih]
      ring

theorem length_filter_ne (n i : ℕ) (hi : i < n) :
    ((List.range n).filter (fun j => j != i)).length = n - 1 := by
  rw [← List.Nodup.erase_eq_filter (List.nodup_range n) i,
    List.length_erase_of_mem (List.mem_range.mpr hi), List.length_range]

theorem length_filter_ne2 (n i j : ℕ) (hi : i < n) (hj : j < n) (hij : i ≠ j) :
    ((List.range n).filter (fun k => k != i && k != j)).length = n - 2 := by
  have hcongr : (List.range n).filter (fun k => k != i && k != j) =
      (List.range n).filter (fun k => k != j && k != i) :=
    List.filter_congr (fun x _ => Bool.and_comm _ _)
  rw [hcongr, ← List.filter_filter,
    ← List.Nodup.erase_eq_filter (List.nodup_range n) i,
    ← List.Nodup.erase_eq_filter (List.Nodup.erase i (List.nodup_range n)) j,
    List.length_erase_of_mem, List.length_erase_of_mem (List.mem_range.mpr hi),
    List.length_range]
  · omega
  · exact (List.mem_erase_of_ne (Ne.symm hij)).mpr (List.mem_range.mpr hj)

theorem length_triples (n : ℕ) : (triples n).length = n * ((n - 1) * (n - 2)) := by
  rw [triples, List.length_flatMap]
  have hinner : ∀ i ∈ List.range n,
      (List.length ∘ fun i =>
        ((List.range n).filter (fun j => j != i)).flatMap (fun j =>
          ((List.range n).filter (fun k => k != i && k != j)).map (fun k => (i, j, k)))) i
        = (n - 1) * (n - 2) := by
    intro i hi
    have hi' : i < n := List.mem_range.mp hi
    show (((List.range n).filter (fun j => j != i)).flatMap (fun j =>
        ((List.range n).filter (fun k => k != i && k != j)).map (fun k => (i, j, k)))).length
      = (n - 1) * (n - 2)
    rw [List.length_flatMap]
    have hmap : ∀ j ∈ (List.range n).filter (fun j => j != i),
        (List.length ∘ fun j =>
          ((List.range n).filter (fun k => k != i && k != j)).map (fun k => (i, j, k))) j
          = (fun _ => n - 2) j := by
      intro j hjf
      obtain ⟨hjr, hjne⟩ := List.mem_filter.mp hjf
      have hj' : j < n := List.mem_range.mp hjr
      have hij : i ≠ j := fun hh => (bne_iff_ne.mp hjne) hh.symm
      show (((List.range n).filter (fun k => k != i && k != j)).map (fun k => (i, j, k))).length
        = n - 2
      rw [List.length_map]
      exact length_filter_ne2 n i j hi' hj' hij
    rw [List.map_congr_left hmap, sum_map_const, length_filter_ne n i hi']
  rw [List.map_congr_left hinner, sum_map_const, List.length_range]

theorem triples_eq_nil_of_lt3 {n : ℕ} (h : n < 3) : triples n = [] := by
  interval_cases n <;> rfl

theorem mem_of_mem_sortDesc {r : TriRow} {rows : List TriRow} (h : r ∈ sortDesc rows) :
    r ∈ rows := by
  rw [sortDesc, List.mem_reverse] at h
  exact (List.perm_insertionSort scoreLe rows).mem_iff.mp h

theorem sortDesc_sorted (rows : List TriRow) :
    (sortDesc rows).Pairwise (fun a b => b.score ≤ a.score) := by
  rw [sortDesc]
  rw [List.pairwise_reverse]
  exact List.sorted_insertionSort scoreLe rows

theorem length_sortDesc (rows : List TriRow) : (sortDesc rows).length = rows.length := by
  rw [sortDesc, List.length_reverse, List.length_insertionSort]

theorem mem_trifecta_rows {p1 p2 p3 : List ℚ} {boats : List ℤ} {r : TriRow}
    (h : r ∈ trifecta_rows p1 p2 p3 boats) :
    ∃ i j k, (i, j, k) ∈ triples boats.length ∧
      r = { first := boats.getD i 0, second := boats.getD j 0, third := boats.getD k 0,
            score := (clip0 p1).getD (pyDictIdx boats (boats.getD i 0)) 0 *
              (clip0 p2).getD (pyDictIdx boats (boats.getD j 0)) 0 *
              (clip0 p3).getD (pyDictIdx boats (boats.getD k 0)) 0,
            q1 := (clip0 p1).getD (pyDictIdx boats (boats.getD i 0)) 0,
            q2 := (clip0 p2).getD (pyDictIdx boats (boats.getD j 0)) 0,
            q3 := (clip0 p3).getD (pyDictIdx boats (boats.getD k 0)) 0 } := by
  rw [trifecta_rows] at h
  obtain ⟨t, ht, rfl⟩ := List.mem_map.mp h
  exact ⟨t.1, t.2.1, t.2.2, ht, rfl⟩

theorem clip0_getD_nonneg (p : List ℚ) (i : ℕ) : 0 ≤ (clip0 p).getD i 0 := by
  by_cases hi : i < p.length
  · rw [clip0, getD_map_of_lt _ p hi 0 0]
    exact le_max_left 0 _
  · rw [List.getD_eq_default]
    simp [clip0]
    omega

theorem clip0_getD_of_nonneg (p : List ℚ) (hp : ∀ x ∈ p, 0 ≤ x) {i : ℕ}
    (hi : i < p.length) : (clip0 p).getD i 0 = p.getD i 0 := by
  rw [clip0, getD_map_of_lt _ p hi 0 0]
  refine max_eq_right (hp _ ?_)
  rw [List.getD_eq_getElem p 0 hi]
  exact List.getElem_mem hi

/-- The ordering the spec claims for the output: score strictly descending,
with exactly-equal scores broken by ascending lexicographic (first, second,
third) order. -/
abbrev sortedDescTieAscLex (rows : List TriRow) : Prop :=
  rows.Pairwise (fun a b =>
    b.score < a.score ∨ (a.score = b.score ∧
      (a.first < b.first ∨ (a.first = b.first ∧ (a.second < b.second ∨
        (a.second = b.second ∧ a.third < b.third))))))

theorem predict_ok_elim {p1 p2 p3 : List ℚ} {df : Frame Value} {topn : ℕ}
    {rows : List TriRow} (h : predict_trifecta p1 p2 p3 df topn = .ok rows) :
    rows = (sortDesc (trifecta_rows p1 p2 p3
      (((lookupCol df "racer_boat_number").getD []).map toIntTrunc))).take topn := by
  rw [predict_trifecta] at h
  by_cases h1 : dfEmpty df
  · rw [if_pos h1] at h; cases h
  · rw [if_neg h1] at h
    by_cases h2 : hasCol df "racer_boat_number"
    · rw [if_pos h2] at h
      injection h with h'
      exact h'.symm
    · rw [if_neg h2] at h; cases h

/-- C1 counterexample: probability vectors holding 2 for every entrant give
every returned triple the score 8, outside [0, 1] — the code clips only from
below at 0 and never applies an upper clip. -/
theorem kyotei_C1_counterexample :
    ¬ (∀ r ∈ (predict_trifecta [2, 2, 2] [2, 2, 2] [2, 2, 2]
        [("racer_boat_number", [some 1, some 2, some 3])] 10).toOption.getD [],
      0 ≤ r.score ∧ r.score ≤ 1) := by
  with_unfolding_all decide

/-- C1 amended: every probability value is clipped from below at 0 only (values
above 1 pass through and NaN/inf are not replaced), so every returned score is
the product of the three clipped marginals stored with its row and is ≥ 0, but
need not lie in [0, 1]. -/
theorem kyotei_C1_scores (p1 p2 p3 : List ℚ) (df : Frame Value) (topn : ℕ)
    (rows : List TriRow) (h : predict_trifecta p1 p2 p3 df topn = .ok rows) :
    ∀ r ∈ rows, 0 ≤ r.score ∧ r.score = r.q1 * r.q2 * r.q3 ∧
      0 ≤ r.q1 ∧ 0 ≤ r.q2 ∧ 0 ≤ r.q3 := by
  have hre := predict_ok_elim h
  subst hre
  intro r hr
  have hr' := mem_of_mem_sortDesc (List.mem_of_mem_take hr)
  obtain ⟨i, j, k, _, rfl⟩ := mem_trifecta_rows hr'
  refine ⟨?_, rfl, clip0_getD_nonneg _ _, clip0_getD_nonneg _ _, clip0_getD_nonneg _ _⟩
  exact mul_nonneg (mul_nonneg (clip0_getD_nonneg _ _) (clip0_getD_nonneg _ _))
    (clip0_getD_nonneg _ _)

/-- C1 witness: a concrete race of boats 4, 5, 6 with unit-vector marginals;
the single returned row has nonnegative score 1 equal to its marginal
product. -/
theorem kyotei_C1_scores_witness :
    predict_trifecta [1, 0, 0] [0, 1, 0] [0, 0, 1]
        [("racer_boat_number", [some 4, some 5, some 6])] 1 =
      .ok [(⟨4, 5, 6, 1, 1, 1, 1⟩ : TriRow)] ∧
    (∀ r ∈ [(⟨4, 5, 6, 1, 1, 1, 1⟩ : TriRow)],
      0 ≤ r.score ∧ r.score = r.q1 * r.q2 * r.q3 ∧ 0 ≤ r.q1 ∧ 0 ≤ r.q2 ∧ 0 ≤ r.q3) :=
  ⟨by with_unfolding_all decide,
   by
    have h := kyotei_C1_scores [1, 0, 0] [0, 1, 0] [0, 0, 1]
      [("racer_boat_number", [some 4, some 5, some 6])] 1
      [(⟨4, 5, 6, 1, 1, 1, 1⟩ : TriRow)]
      (by with_unfolding_all decide)
    exact h⟩

/-- C2 counterexample: with all marginals equal to 1 all 6 triples of a 3-boat
race tie at score 1, and the returned order is the reverse of the enumeration
order — (3,2,1) first — not the claimed ascending lexicographic order, because
pandas implements the descending sort by reversing an ascending argsort. -/
theorem kyotei_C2_counterexample :
    ¬ sortedDescTieAscLex ((predict_trifecta [1, 1, 1] [1, 1, 1] [1, 1, 1]
      [("racer_boat_number", [some 1, some 2, some 3])] 10).toOption.getD []) := by
  with_unfolding_all decide

/-- C2 amended: the returned list is sorted by score descending and is a
deterministic function of the input, but the ascending (i,j,k) tie-break is
not implemented: equal-score triples appear in the order the underlying
ascending sort leaves them after reversal (reverse enumeration order for small
races). -/
theorem kyotei_C2_sorted (p1 p2 p3 : List ℚ) (df : Frame Value) (topn : ℕ)
    (rows : List TriRow) (h : predict_trifecta p1 p2 p3 df topn = .ok rows) :
    rows.Pairwise (fun a b => b.score ≤ a.score) := by
  have hre := predict_ok_elim h
  subst hre
  exact List.Pairwise.sublist (List.take_sublist _ _) (sortDesc_sorted _)

/-- C2 witness: a 3-boat race with distinct marginals; the returned list is
weakly sorted by descending score. -/
theorem kyotei_C2_sorted_witness :
    ((predict_trifecta [3, 1, 2] [1, 3, 2] [2, 1, 3]
        [("racer_boat_number", [some 7, some 8, some 9])] 4).toOption.getD
      []).Pairwise (fun a b => b.score ≤ a.score) :=
  kyotei_C2_sorted [3, 1, 2] [1, 3, 2] [2, 1, 3]
    [("racer_boat_number", [some 7, some 8, some 9])] 4 _
    (by with_unfolding_all decide)

/-- C3 counterexample: a nonempty 2-entrant feature table raises nothing —
itertools.permutations of 2 boats taken 3 at a time is empty, so the code
returns an empty result frame, not a fatal precondition error. -/
theorem kyotei_C3_counterexample :
    predict_trifecta [1, 1] [1, 1] [1, 1]
      [("racer_boat_number", [some 1, some 2])] 10 = .ok [] := by
  with_unfolding_all decide

/-- C3 amended: when the feature table is nonempty and carries the boat-number
column but holds fewer than 3 entrants, the scorer silently returns an empty
list of triples (ok, no error). -/
theorem kyotei_C3_too_few (p1 p2 p3 : List ℚ) (df : Frame Value) (topn : ℕ)
    (h1 : dfEmpty df = false) (h2 : hasCol df "racer_boat_number" = true)
    (hK : (((lookupCol df "racer_boat_number").getD []).map toIntTrunc).length < 3) :
    predict_trifecta p1 p2 p3 df topn = .ok [] := by
  have hrows : trifecta_rows p1 p2 p3
      (((lookupCol df "racer_boat_number").getD []).map toIntTrunc) = [] := by
    rw [trifecta_rows, triples_eq_nil_of_lt3 hK]
    rfl
  rw [predict_trifecta, if_neg (by rw [h1]; exact Bool.false_ne_true), if_pos h2]
  show Except.ok ((sortDesc (trifecta_rows p1 p2 p3
      (((lookupCol df "racer_boat_number").getD []).map toIntTrunc))).take topn) =
    Except.ok ([] : List TriRow)
  rw [hrows]
  rw [show sortDesc [] = [] from rfl, List.take_nil]

/-- C3 witness: a single-entrant table passes both precondition checks and
produces the empty result. -/
theorem kyotei_C3_too_few_witness :
    predict_trifecta [1] [1] [1] [("racer_boat_number", [some 9])] 10 = .ok [] :=
  kyotei_C3_too_few [1] [1] [1] [("racer_boat_number", [some 9])] 10
    (by decide) (by decide) (by decide)

/-- C4: for K ≥ 3 pairwise-distinct boats and topN ≥ 1, the scorer returns
exactly min(topN, K(K-1)(K-2)) triples; each returned triple consists of three
pairwise-distinct boat numbers drawn at distinct indices i, j, k, and its score
is exactly p1[i] * p2[j] * p3[k] (the clip at 0 is the identity on probability
vectors, which are nonnegative). -/
theorem kyotei_C4_shape (p1 p2 p3 : List ℚ) (df : Frame Value) (topn : ℕ)
    (boats : List ℤ)
    (hb : boats = ((lookupCol df "racer_boat_number").getD []).map toIntTrunc)
    (h1 : dfEmpty df = false) (h2 : hasCol df "racer_boat_number" = true)
    (hK : 3 ≤ boats.length) (hnd : boats.Nodup) (htop : 1 ≤ topn)
    (hl1 : p1.length = boats.length) (hl2 : p2.length = boats.length)
    (hl3 : p3.length = boats.length)
    (hp1 : ∀ x ∈ p1, 0 ≤ x) (hp2 : ∀ x ∈ p2, 0 ≤ x) (hp3 : ∀ x ∈ p3, 0 ≤ x) :
    ∃ rows, predict_trifecta p1 p2 p3 df topn = .ok rows ∧
      rows.length = min topn (boats.length * ((boats.length - 1) * (boats.length - 2))) ∧
      ∀ r ∈ rows,
        r.first ≠ r.second ∧ r.first ≠ r.third ∧ r.second ≠ r.third ∧
        ∃ i j k, i < boats.length ∧ j < boats.length ∧ k < boats.length ∧
          i ≠ j ∧ i ≠ k ∧ j ≠ k ∧
          r.first = boats.getD i 0 ∧ r.second = boats.getD j 0 ∧
          r.third = boats.getD k 0 ∧
          r.score = p1.getD i 0 * p2.getD j 0 * p3.getD k 0 := by
  refine ⟨(sortDesc (trifecta_rows p1 p2 p3 boats)).take topn, ?_, ?_, ?_⟩
  · rw [predict_trifecta, if_neg (by rw [h1]; exact Bool.false_ne_true), if_pos h2]
    show Except.ok ((sortDesc (trifecta_rows p1 p2 p3
        (((lookupCol df "racer_boat_number").getD []).map toIntTrunc))).take topn) =
      Except.ok ((sortDesc (trifecta_rows p1 p2 p3 boats)).take topn)
    rw [← hb]
  · rw [List.length_take, length_sortDesc, trifecta_rows, List.length_map, length_triples]
  · intro r hr
    have hr' := mem_of_mem_sortDesc (List.mem_of_mem_take hr)
    obtain ⟨i, j, k, htr, rfl⟩ := mem_trifecta_rows hr'
    obtain ⟨hi, hj, hk, hij, hik, hjk⟩ := mem_triples.mp htr
    have hgd : ∀ {a b : ℕ}, a < boats.length → b < boats.length → a ≠ b →
        boats.getD a 0 ≠ boats.getD b 0 := by
      intro a b ha hb' hab he
      rw [List.getD_eq_getElem boats 0 ha, List.getD_eq_getElem boats 0 hb'] at he
      exact hab ((List.Nodup.getElem_inj_iff hnd).mp he)
    have hidx : ∀ {a : ℕ} (ha : a < boats.length),
        pyDictIdx boats (boats.getD a 0) = a := fun ha => pyDictIdx_getD boats hnd ha
    refine ⟨hgd hi hj hij, hgd hi hk hik, hgd hj hk hjk,
      i, j, k, hi, hj, hk, hij, hik, hjk, rfl, rfl, rfl, ?_⟩
    show (clip0 p1).getD (pyDictIdx boats (boats.getD i 0)) 0 *
        (clip0 p2).getD (pyDictIdx boats (boats.getD j 0)) 0 *
        (clip0 p3).getD (pyDictIdx boats (boats.getD k 0)) 0 = _
    rw [hidx hi, hidx hj, hidx hk,
      clip0_getD_of_nonneg p1 hp1 (by omega), clip0_getD_of_nonneg p2 hp2 (by omega),
      clip0_getD_of_nonneg p3 hp3 (by omega)]

/-- C4 witness: three distinct boats with nonnegative marginals and topN = 2
satisfy every hypothesis; min(2, 6) = 2 triples come back in the shape the
theorem states. -/
theorem kyotei_C4_shape_witness :
    3 ≤ ([1, 2, 3] : List ℤ).length ∧
    ∃ rows, predict_trifecta [3, 2, 1] [1, 2, 3] [2, 3, 1]
        [("racer_boat_number", [some 1, some 2, some 3])] 2 = .ok rows ∧
      rows.length = min 2 (([1, 2, 3] : List ℤ).length *
        ((([1, 2, 3] : List ℤ).length - 1) * (([1, 2, 3] : List ℤ).length - 2))) ∧
      ∀ r ∈ rows,
        r.first ≠ r.second ∧ r.first ≠ r.third ∧ r.second ≠ r.third ∧
        ∃ i j k, i < ([1, 2, 3] : List ℤ).length ∧ j < ([1, 2, 3] : List ℤ).length ∧
          k < ([1, 2, 3] : List ℤ).length ∧ i ≠ j ∧ i ≠ k ∧ j ≠ k ∧
          r.first = ([1, 2, 3] : List ℤ).getD i 0 ∧
          r.second = ([1, 2, 3] : List ℤ).getD j 0 ∧
          r.third = ([1, 2, 3] : List ℤ).getD k 0 ∧
          r.score = ([3, 2, 1] : List ℚ).getD i 0 * ([1, 2, 3] : List ℚ).getD j 0 *
            ([2, 3, 1] : List ℚ).getD k 0 :=
  ⟨by decide,
   kyotei_C4_shape [3, 2, 1] [1, 2, 3] [2, 3, 1]
     [("racer_boat_number", [some 1, some 2, some 3])] 2 [1, 2, 3]
     (by with_unfolding_all decide) (by decide) (by decide) (by decide) (by decide)
     (by decide) (by decide) (by decide) (by decide)
     (by with_unfolding_all decide) (by with_unfolding_all decide)
     (by with_unfolding_all decide)⟩

end KyoteiAI
